import Mathlib

/-
  Verification of the claude-swarm orchestration engine (Go sources) against
  its natural-language specification.  The Go code is shallowly embedded:
  pure functions become Lean functions, map-carrying structs become
  association lists, stateful methods become explicit state passing, and
  fallible methods return `Except`.  Times (time.Time) are modelled as `Nat`
  instants passed in by the caller (Go calls time.Now() at the mutation
  point).  Go `map` iteration order is unspecified; wherever the code
  iterates a map we model the iteration as the order of the association
  list and note it in the doc comment.
-/

namespace Swarm

/-- Embeds workflow.Task (internal/workflow/types.go): id, agent type,
description, prompt template and dependency ids. -/
structure Task where
  id : String
  agentType : String
  description : String
  prompt : String
  dependsOn : List String
deriving DecidableEq, Repr

/-- Embeds workflow.Workflow: name, description, ordered task list. -/
structure Workflow where
  name : String
  description : String
  tasks : List Task
deriving DecidableEq, Repr

/-- Structured rendering of the error values produced by Parser.Validate
and Parser.checkCircularDependencies (the Go code builds the messages with
fmt.Errorf; we keep the data each message carries). -/
inductive VErr where
  | nameRequired
  | noTasks
  | idRequired
  | duplicateId (id : String)
  | promptRequired (id : String)
  | depNotFound (taskId dep : String)
  | circular (path : List String)
deriving DecidableEq, Repr

/-- Embeds Parser.taskExistsInList: linear scan of the task list for an id. -/
def taskExistsInList (taskID : String) (tasks : List Task) : Bool :=
  tasks.any (fun t => t.id == taskID)

/-- Embeds the dependency-checking inner loop of Parser.Validate: the first
dependency id that is neither among the already-seen ids nor anywhere in
the full task list, if any. -/
def firstBadDep : List String → List String → List Task → Option String
  | [], _, _ => none
  | d :: ds, seen, all =>
    if !(seen.contains d) && !(taskExistsInList d all) then some d
    else firstBadDep ds seen all

/-- Embeds the per-task loop of Parser.Validate.  `seen` accumulates the
ids of earlier tasks (the Go `taskIDs` map); the current task's id is added
to `seen` before its dependencies are checked, exactly as in the Go code. -/
def validateTasksLoop : List Task → List String → List Task → Except VErr Unit
  | [], _, _ => .ok ()
  | t :: ts, seen, all =>
    if t.id = "" then .error .idRequired
    else if seen.contains t.id then .error (.duplicateId t.id)
    else if t.prompt = "" then .error (.promptRequired t.id)
    else
      match firstBadDep t.dependsOn (t.id :: seen) all with
      | some d => .error (.depNotFound t.id d)
      | none => validateTasksLoop ts (t.id :: seen) all

/-- Embeds the `deps` map built by Parser.checkCircularDependencies
(`deps[task.ID] = task.DependsOn`, a later duplicate id overwriting an
earlier one). -/
def buildDeps (ts : List Task) : List (String × List String) :=
  ts.foldl (fun acc t => (acc.filter (fun p => p.1 ≠ t.id)) ++ [(t.id, t.dependsOn)]) []

/-- Lookup in the dependency map; a missing key yields the empty list, as
a Go map read of an absent key yields nil. -/
def lookupDeps (deps : List (String × List String)) (t : String) : List String :=
  match deps.find? (fun p => p.1 == t) with
  | some p => p.2
  | none => []

/-- Result of one depth-first traversal: a cycle report, a clean return,
or fuel exhaustion (the last never occurs at the fuel that
checkCircularDependencies supplies, as proved below). -/
inductive DfsRes where
  | cycle (p : List String)
  | ok
  | out
deriving DecidableEq, Repr

/-- Embeds the `for _, depID := range deps[taskID]` loop inside
Parser.hasCircularDep, threading the mutable visited set through the
children and stopping at the first error; `rec` is the recursive call at
the next depth. -/
def hasCircularDepGo (rec : String → List String → List String → DfsRes × List String) :
    List String → List String → List String → DfsRes × List String
  | [], visited, _ => (.ok, visited)
  | d :: ds, visited, path =>
    match rec d visited path with
    | (.ok, v) => hasCircularDepGo rec ds v path
    | other => other

/-- Embeds Parser.hasCircularDep: depth-first traversal carrying the
mutable `visited` map (the on-current-path marker, threaded explicitly)
and the ordered `path`.  On revisiting an on-path node it reports
`path ++ [t]`, the Go `append(path, taskID)`.  On a clean return the
node's marker is cleared (`visited[taskID] = false`).  `fuel` bounds the
recursion depth; the bound used by checkCircularDependencies is proved
sufficient below, so the embedding agrees with the unbounded Go recursion. -/
def hasCircularDep (deps : List (String × List String)) :
    Nat → String → List String → List String → DfsRes × List String
  | 0 => fun _ visited _ => (.out, visited)
  | fuel + 1 => fun t visited path =>
    if t ∈ visited then (.cycle (path ++ [t]), visited)
    else
      match hasCircularDepGo (hasCircularDep deps fuel) (lookupDeps deps t)
          (t :: visited) (path ++ [t]) with
      | (.ok, v) => (.ok, v.erase t)
      | other => other

/-- Every id mentioned in the dependency map (keys and dependency
targets); its length bounds the recursion depth of the traversal. -/
def allNodes (deps : List (String × List String)) : List String :=
  deps.map Prod.fst ++ deps.foldr (fun p acc => p.2 ++ acc) []

/-- Embeds the `for taskID := range deps` loop of
Parser.checkCircularDependencies: run the traversal from every key with a
fresh visited set, returning the first reported cycle.  Go iterates the
map in unspecified order; we iterate in insertion order. -/
def firstCycle (deps : List (String × List String)) (fuel : Nat) :
    List String → Option (List String)
  | [] => none
  | t :: ts =>
    match hasCircularDep deps fuel t [] [] with
    | (.cycle r, _) => some r
    | _ => firstCycle deps fuel ts

/-- Embeds Parser.checkCircularDependencies. -/
def checkCircularDependencies (wf : Workflow) : Option (List String) :=
  let deps := buildDeps wf.tasks
  firstCycle deps ((allNodes deps).length + 1) (deps.map Prod.fst)

/-- Embeds Parser.Validate (internal/workflow/types.go): name, task-count,
id, uniqueness, prompt and dependency checks in source order, then the
cycle check. -/
def Validate (wf : Workflow) : Except VErr Unit :=
  if wf.name = "" then .error .nameRequired
  else if wf.tasks.isEmpty then .error .noTasks
  else
    match validateTasksLoop wf.tasks [] wf.tasks with
    | .error e => .error e
    | .ok () =>
      match checkCircularDependencies wf with
      | some r => .error (.circular r)
      | none => .ok ()

/-- Dependency edge of the graph the cycle check runs on: `b` is a
declared dependency of `a`. -/
def Edge (deps : List (String × List String)) (a b : String) : Prop :=
  b ∈ lookupDeps deps a

/-- Nonempty dependency path (transitive closure of `Edge`). -/
inductive Reaches (deps : List (String × List String)) : String → String → Prop
  | single {a b : String} : Edge deps a b → Reaches deps a b
  | head {a b c : String} : Edge deps a b → Reaches deps b c → Reaches deps a c

/-- The dependency relation has a cycle: some id reaches itself by a
nonempty path. -/
def HasCycle (deps : List (String × List String)) : Prop :=
  ∃ a, Reaches deps a a

/-- Specification-side validity condition of claim C1: non-empty name, at
least one task, non-empty unique ids, non-empty prompts, every dependency
declared, and the dependency relation acyclic. -/
def ValidSpec (wf : Workflow) : Prop :=
  wf.name ≠ "" ∧ wf.tasks ≠ [] ∧
  (∀ t ∈ wf.tasks, t.id ≠ "" ∧ t.prompt ≠ "") ∧
  (wf.tasks.map Task.id).Nodup ∧
  (∀ t ∈ wf.tasks, ∀ d ∈ t.dependsOn, d ∈ wf.tasks.map Task.id) ∧
  ¬ HasCycle (buildDeps wf.tasks)

/-- Specification-side property of a reported cycle: the report is an
ordered path along dependency edges whose final element revisits an
earlier element of the path. -/
def CycleReport (deps : List (String × List String)) (r : List String) : Prop :=
  List.Chain' (Edge deps) r ∧ ∃ x, r.getLast? = some x ∧ x ∈ r.dropLast

deriving instance DecidableEq for Except

lemma lookupDeps_eq_nil_of_not_mem {deps : List (String × List String)} {t : String}
    (h : t ∉ deps.map Prod.fst) : lookupDeps deps t = [] := by
  unfold lookupDeps
  cases hf : deps.find? (fun p => p.1 == t) with
  | none => rfl
  | some p =>
    exfalso
    have hp := List.find?_some hf
    have hmem := List.mem_of_find?_eq_some hf
    simp only [beq_iff_eq] at hp
    exact h (hp ▸ List.mem_map_of_mem Prod.fst hmem)

lemma edge_source_mem_keys {deps : List (String × List String)} {a b : String}
    (h : Edge deps a b) : a ∈ deps.map Prod.fst := by
  by_contra hc
  rw [Edge, lookupDeps_eq_nil_of_not_mem hc] at h
  exact absurd h (List.not_mem_nil b)

lemma hasCircularDepGo_restore
    {rec : String → List String → List String → DfsRes × List String}
    (hrec : ∀ t v p v', rec t v p = (.ok, v') → v' = v) :
    ∀ (ds v p : List String) (v' : List String),
      hasCircularDepGo rec ds v p = (.ok, v') → v' = v := by
  intro ds
  induction ds with
  | nil => intro v p v' h; rw [hasCircularDepGo] at h; simpa using h.symm
  | cons d ds ih =>
    intro v p v' h
    rw [hasCircularDepGo] at h
    cases hres : rec d v p with
    | mk r w =>
      rw [hres] at h
      cases r with
      | ok =>
        have hw : w = v := hrec _ _ _ _ hres
        rw [hw] at h
        exact ih _ _ _ h
      | cycle c => simp at h
      | out => simp at h

lemma hasCircularDep_restore (deps : List (String × List String)) :
    ∀ (fuel : Nat) (t : String) (v p v' : List String),
      hasCircularDep deps fuel t v p = (.ok, v') → v' = v := by
  intro fuel
  induction fuel with
  | zero => intro t v p v' h; simp [hasCircularDep] at h
  | succ n ih =>
    intro t v p v' h
    rw [hasCircularDep] at h
    by_cases hv : t ∈ v
    · simp [hv] at h
    · simp only [hv, ite_false] at h
      cases hres : hasCircularDepGo (hasCircularDep deps n) (lookupDeps deps t)
          (t :: v) (p ++ [t]) with
      | mk r w =>
        rw [hres] at h
        cases r with
        | ok =>
          have hw : w = t :: v := hasCircularDepGo_restore ih _ _ _ _ hres
          rw [hw] at h
          simp only [Prod.mk.injEq] at h
          rw [← h.2, List.erase_cons_head]
        | cycle c => simp at h
        | out => simp at h

lemma hasCircularDep_ok_not_mem {deps : List (String × List String)}
    {fuel : Nat} {t : String} {v p w : List String}
    (h : hasCircularDep deps fuel t v p = (.ok, w)) : t ∉ v := by
  cases fuel with
  | zero => simp [hasCircularDep] at h
  | succ n =>
    rw [hasCircularDep] at h
    by_cases hv : t ∈ v
    · simp [hv] at h
    · exact hv

/-- Unvisited ids remaining: the measure that bounds traversal depth. -/
def boundCount (deps : List (String × List String)) (v : List String) : Nat :=
  ((allNodes deps).toFinset \ v.toFinset).card

lemma boundCount_cons_lt {deps : List (String × List String)} {v : List String} {t : String}
    (ht : t ∈ allNodes deps) (hv : t ∉ v) :
    boundCount deps (t :: v) < boundCount deps v := by
  unfold boundCount
  have h1 : (t :: v).toFinset = insert t v.toFinset := by simp
  rw [h1, Finset.sdiff_insert]
  apply Finset.card_erase_lt_of_mem
  rw [Finset.mem_sdiff]
  exact ⟨List.mem_toFinset.mpr ht, fun hc => hv (List.mem_toFinset.mp hc)⟩

lemma hasCircularDepGo_no_out
    {rec : String → List String → List String → DfsRes × List String}
    (B : List String → Prop)
    (hrestore : ∀ t v p v', rec t v p = (.ok, v') → v' = v)
    (hno : ∀ t v p, B v → (rec t v p).1 ≠ .out) :
    ∀ (ds v p : List String), B v → (hasCircularDepGo rec ds v p).1 ≠ .out := by
  intro ds
  induction ds with
  | nil => intro v p hb; rw [hasCircularDepGo]; simp
  | cons d ds ih =>
    intro v p hb
    rw [hasCircularDepGo]
    cases hres : rec d v p with
    | mk r w =>
      cases r with
      | ok =>
        have hw : w = v := hrestore _ _ _ _ hres
        rw [hw]
        exact ih v p hb
      | cycle c => simp
      | out =>
        exact absurd (congrArg Prod.fst hres) (by simpa using hno d v p hb)

lemma hasCircularDep_no_out (deps : List (String × List String)) :
    ∀ (fuel : Nat) (t : String) (v p : List String),
      boundCount deps v < fuel → (hasCircularDep deps fuel t v p).1 ≠ .out := by
  intro fuel
  induction fuel with
  | zero => intro t v p hb; omega
  | succ n ih =>
    intro t v p hb
    rw [hasCircularDep]
    by_cases hv : t ∈ v
    · simp [hv]
    · simp only [hv, ite_false]
      by_cases ht : t ∈ allNodes deps
      · have hlt : boundCount deps (t :: v) < n := by
          have := boundCount_cons_lt ht hv
          omega
        have hno := hasCircularDepGo_no_out (fun v' => boundCount deps v' < n)
          (hasCircularDep_restore deps n) (fun t' v' p' hb' => ih t' v' p' hb')
          (lookupDeps deps t) (t :: v) (p ++ [t]) hlt
        cases hres : hasCircularDepGo (hasCircularDep deps n) (lookupDeps deps t)
            (t :: v) (p ++ [t]) with
        | mk r w =>
          rw [hres] at hno
          cases r with
          | ok => simp
          | cycle c => simp
          | out => simp at hno
      · have hkeys : t ∉ deps.map Prod.fst := fun hc => ht (by
          unfold allNodes; exact List.mem_append_left _ hc)
        rw [lookupDeps_eq_nil_of_not_mem hkeys]
        rw [hasCircularDepGo]
        simp

lemma hasCircularDepGo_noreach {deps : List (String × List String)}
    {rec : String → List String → List String → DfsRes × List String}
    (hrestore : ∀ t v p v', rec t v p = (.ok, v') → v' = v)
    (hmem : ∀ t v p w, rec t v p = (.ok, w) → t ∉ v)
    (hreach : ∀ t v p w, rec t v p = (.ok, w) →
      ∀ u, Reaches deps t u → u ∉ v ∧ u ≠ t) :
    ∀ (ds v p w : List String), hasCircularDepGo rec ds v p = (.ok, w) →
      ∀ d ∈ ds, d ∉ v ∧ ∀ u, Reaches deps d u → u ∉ v ∧ u ≠ d := by
  intro ds
  induction ds with
  | nil => intro v p w h d hd; simp at hd
  | cons d' ds' ih =>
    intro v p w h d hd
    rw [hasCircularDepGo] at h
    cases hres : rec d' v p with
    | mk r w' =>
      rw [hres] at h
      cases r with
      | ok =>
        have hw : w' = v := hrestore _ _ _ _ hres
        rw [hw] at hres h
        cases hd with
        | head => exact ⟨hmem _ _ _ _ hres, fun u hu => hreach _ _ _ _ hres u hu⟩
        | tail _ hmem' => exact ih _ _ _ h d hmem'
      | cycle c => simp at h
      | out => simp at h

lemma hasCircularDep_noreach (deps : List (String × List String)) :
    ∀ (fuel : Nat) (t : String) (v p w : List String),
      hasCircularDep deps fuel t v p = (.ok, w) →
      ∀ u, Reaches deps t u → u ∉ v ∧ u ≠ t := by
  intro fuel
  induction fuel with
  | zero => intro t v p w h; simp [hasCircularDep] at h
  | succ n ih =>
    intro t v p w h u hu
    rw [hasCircularDep] at h
    by_cases hv : t ∈ v
    · simp [hv] at h
    · simp only [hv, ite_false] at h
      cases hres : hasCircularDepGo (hasCircularDep deps n) (lookupDeps deps t)
          (t :: v) (p ++ [t]) with
      | mk r w' =>
        rw [hres] at h
        cases r with
        | ok =>
          have hq := hasCircularDepGo_noreach (hasCircularDep_restore deps n)
            (fun t' v' p' w'' h' => hasCircularDep_ok_not_mem h')
            (fun t' v' p' w'' h' => ih t' v' p' w'' h') _ _ _ _ hres
          cases hu with
          | single he =>
            have := (hq _ he).1
            simp only [List.mem_cons, not_or] at this
            exact ⟨this.2, this.1⟩
          | head he hr =>
            have := ((hq _ he).2 _ hr).1
            simp only [List.mem_cons, not_or] at this
            exact ⟨this.2, this.1⟩
        | cycle c => simp at h
        | out => simp at h

lemma hasCircularDepGo_sound {deps : List (String × List String)}
    {rec : String → List String → List String → DfsRes × List String}
    (hrestore : ∀ t v p v', rec t v p = (.ok, v') → v' = v)
    (hsound : ∀ t v p r w, rec t v p = (.cycle r, w) →
      (∀ x, x ∈ v ↔ x ∈ p) → List.Chain' (Edge deps) (p ++ [t]) →
      CycleReport deps r) :
    ∀ (ds v p r w : List String), hasCircularDepGo rec ds v p = (.cycle r, w) →
      (∀ x, x ∈ v ↔ x ∈ p) → List.Chain' (Edge deps) p →
      (∃ tl, p.getLast? = some tl ∧ ∀ d ∈ ds, Edge deps tl d) →
      CycleReport deps r := by
  intro ds
  induction ds with
  | nil =>
    intro v p r w h _ _ _
    rw [hasCircularDepGo] at h
    simp at h
  | cons d' ds' ih =>
    intro v p r w h hiff hchain hedge
    rw [hasCircularDepGo] at h
    cases hres : rec d' v p with
    | mk rr w' =>
      rw [hres] at h
      cases rr with
      | ok =>
        have hw : w' = v := hrestore _ _ _ _ hres
        rw [hw] at h
        refine ih _ _ _ _ h hiff hchain ?_
        obtain ⟨tl, htl, hall⟩ := hedge
        exact ⟨tl, htl, fun d hd => hall d (List.mem_cons_of_mem _ hd)⟩
      | out => simp at h
      | cycle c =>
        have hc : c = r := by
          have := congrArg Prod.fst h
          simpa using this
        subst hc
        obtain ⟨tl, htl, hall⟩ := hedge
        refine hsound _ _ _ _ _ hres hiff ?_
        rw [List.chain'_append]
        refine ⟨hchain, List.chain'_singleton _, ?_⟩
        intro x hx y hy
        simp only [List.head?_cons, Option.mem_def, Option.some.injEq] at hy
        subst hy
        rw [htl] at hx
        simp only [Option.mem_def, Option.some.injEq] at hx
        subst hx
        exact hall d' (List.mem_cons_self d' ds')

lemma hasCircularDep_sound (deps : List (String × List String)) :
    ∀ (fuel : Nat) (t : String) (v p r w : List String),
      hasCircularDep deps fuel t v p = (.cycle r, w) →
      (∀ x, x ∈ v ↔ x ∈ p) → List.Chain' (Edge deps) (p ++ [t]) →
      CycleReport deps r := by
  intro fuel
  induction fuel with
  | zero => intro t v p r w h; simp [hasCircularDep] at h
  | succ n ih =>
    intro t v p r w h hiff hchain
    rw [hasCircularDep] at h
    by_cases hv : t ∈ v
    · simp only [hv, ite_true] at h
      have hr : r = p ++ [t] := by
        have := congrArg Prod.fst h
        simpa using this.symm
      subst hr
      refine ⟨hchain, t, ?_, ?_⟩
      · simp [List.getLast?_concat]
      · rw [List.dropLast_concat]
        exact (hiff t).mp hv
    · simp only [hv, ite_false] at h
      cases hres : hasCircularDepGo (hasCircularDep deps n) (lookupDeps deps t)
          (t :: v) (p ++ [t]) with
      | mk rr w' =>
        rw [hres] at h
        cases rr with
        | ok => simp at h
        | out => simp at h
        | cycle c =>
          have hrc : c = r := by
            have := congrArg Prod.fst h
            simpa using this
          subst hrc
          refine hasCircularDepGo_sound (hasCircularDep_restore deps n)
            (fun t' v' p' r' w'' h' hiff' hchain' => ih t' v' p' r' w'' h' hiff' hchain')
            _ _ _ _ _ hres ?_ hchain ?_
          · intro x
            constructor
            · intro hx
              rcases List.mem_cons.mp hx with hx | hx
              · exact List.mem_append.mpr (Or.inr (by simp [hx]))
              · exact List.mem_append.mpr (Or.inl ((hiff x).mp hx))
            · intro hx
              rcases List.mem_append.mp hx with hx | hx
              · exact List.mem_cons.mpr (Or.inr ((hiff x).mpr hx))
              · exact List.mem_cons.mpr (Or.inl (by simpa using hx))
          · exact ⟨t, by simp [List.getLast?_concat], fun d hd => hd⟩

lemma chain_reaches {deps : List (String × List String)} :
    ∀ (l : List String) (a b : String), List.Chain' (Edge deps) (a :: l) →
      l.getLast? = some b → Reaches deps a b := by
  intro l
  induction l with
  | nil => intro a b _ hb; simp at hb
  | cons c l' ih =>
    intro a b hchain hb
    have hedge : Edge deps a c := (List.chain'_cons.mp hchain).1
    have hrest : List.Chain' (Edge deps) (c :: l') := (List.chain'_cons.mp hchain).2
    cases l' with
    | nil =>
      simp at hb
      subst hb
      exact Reaches.single hedge
    | cons d l'' =>
      exact Reaches.head hedge (ih c b hrest (by simpa using hb))

lemma cycleReport_hasCycle {deps : List (String × List String)} {r : List String}
    (h : CycleReport deps r) : HasCycle deps := by
  obtain ⟨hchain, x, hlast, hmem⟩ := h
  induction r with
  | nil => simp at hmem
  | cons a r' ih =>
    cases hr' : r' with
    | nil => subst hr'; simp at hmem
    | cons c l =>
      subst hr'
      rw [List.dropLast_cons_of_ne_nil (by simp)] at hmem
      rcases List.mem_cons.mp hmem with hx | hx
      · subst hx
        refine ⟨x, chain_reaches _ x x hchain ?_⟩
        simpa using hlast
      · exact ih (List.Chain'.tail hchain) (by simpa using hlast) hx

lemma firstCycle_none_iff {deps : List (String × List String)} {fuel : Nat} :
    ∀ ks : List String, firstCycle deps fuel ks = none ↔
      ∀ t ∈ ks, ∀ r w, hasCircularDep deps fuel t [] [] ≠ (.cycle r, w) := by
  intro ks
  induction ks with
  | nil => simp [firstCycle]
  | cons k ks ih =>
    rw [firstCycle]
    cases hres : hasCircularDep deps fuel k [] [] with
    | mk rr w =>
      cases rr with
      | cycle c =>
        simp only []
        constructor
        · intro h; exact absurd h (by simp)
        · intro h
          exact absurd hres (h k (List.mem_cons_self k ks) c w)
      | ok =>
        simp only []
        rw [ih]
        constructor
        · intro h t ht r w' hc
          rcases List.mem_cons.mp ht with ht | ht
          · subst ht; rw [hres] at hc; simp at hc
          · exact h t ht r w' hc
        · intro h t ht r w' hc
          exact h t (List.mem_cons_of_mem _ ht) r w' hc
      | out =>
        simp only []
        rw [ih]
        constructor
        · intro h t ht r w' hc
          rcases List.mem_cons.mp ht with ht | ht
          · subst ht; rw [hres] at hc; simp at hc
          · exact h t ht r w' hc
        · intro h t ht r w' hc
          exact h t (List.mem_cons_of_mem _ ht) r w' hc

lemma firstCycle_some {deps : List (String × List String)} {fuel : Nat} {r : List String} :
    ∀ ks : List String, firstCycle deps fuel ks = some r →
      ∃ t w, hasCircularDep deps fuel t [] [] = (.cycle r, w) := by
  intro ks
  induction ks with
  | nil => intro h; simp [firstCycle] at h
  | cons k ks ih =>
    intro h
    rw [firstCycle] at h
    cases hres : hasCircularDep deps fuel k [] [] with
    | mk rr w =>
      rw [hres] at h
      cases rr with
      | cycle c =>
        simp at h
        exact ⟨k, w, by rw [hres, h]⟩
      | ok => exact ih h
      | out => exact ih h

lemma checkCircularDependencies_none_iff (wf : Workflow) :
    checkCircularDependencies wf = none ↔ ¬ HasCycle (buildDeps wf.tasks) := by
  unfold checkCircularDependencies
  set deps := buildDeps wf.tasks with hdeps
  set fuel := (allNodes deps).length + 1 with hfuel
  constructor
  · intro hnone hcycle
    obtain ⟨a, ha⟩ := hcycle
    have hkey : a ∈ deps.map Prod.fst := by
      cases ha with
      | single he => exact edge_source_mem_keys he
      | head he _ => exact edge_source_mem_keys he
    have hnc := (firstCycle_none_iff (deps.map Prod.fst)).mp hnone a hkey
    have hno : (hasCircularDep deps fuel a [] []).1 ≠ .out := by
      apply hasCircularDep_no_out
      have h1 : boundCount deps [] ≤ (allNodes deps).length := by
        unfold boundCount
        simp only [List.toFinset_nil, Finset.sdiff_empty]
        exact (allNodes deps).toFinset_card_le
      omega
    cases hres : hasCircularDep deps fuel a [] [] with
    | mk rr w =>
      cases rr with
      | cycle c => exact hnc c w hres
      | out => rw [hres] at hno; simp at hno
      | ok =>
        have := (hasCircularDep_noreach deps fuel _ _ _ _ hres a ha).2
        exact this rfl
  · intro hacyclic
    cases hfc : firstCycle deps fuel (deps.map Prod.fst) with
    | none => rfl
    | some r =>
      exfalso
      obtain ⟨t, w, hres⟩ := firstCycle_some _ hfc
      have hreport : CycleReport deps r := by
        refine hasCircularDep_sound deps fuel _ _ _ _ _ hres ?_ ?_
        · intro x; simp
        · simp
      exact hacyclic (cycleReport_hasCycle hreport)

lemma checkCircularDependencies_some (wf : Workflow) (r : List String)
    (h : checkCircularDependencies wf = some r) :
    CycleReport (buildDeps wf.tasks) r := by
  unfold checkCircularDependencies at h
  obtain ⟨t, w, hres⟩ := firstCycle_some _ h
  refine hasCircularDep_sound _ _ _ _ _ _ _ hres ?_ ?_
  · intro x; simp
  · simp

lemma taskExistsInList_iff (d : String) (all : List Task) :
    taskExistsInList d all = true ↔ d ∈ all.map Task.id := by
  unfold taskExistsInList
  rw [List.any_eq_true]
  constructor
  · intro ⟨t, ht, hid⟩
    simp only [beq_iff_eq] at hid
    exact List.mem_map.mpr ⟨t, ht, hid⟩
  · intro hd
    obtain ⟨t, ht, hid⟩ := List.mem_map.mp hd
    exact ⟨t, ht, by simp [hid]⟩

lemma firstBadDep_none_iff :
    ∀ (ds seen : List String) (all : List Task),
      firstBadDep ds seen all = none ↔
        ∀ d ∈ ds, d ∈ seen ∨ d ∈ all.map Task.id := by
  intro ds
  induction ds with
  | nil => intro seen all; simp [firstBadDep]
  | cons d ds ih =>
    intro seen all
    rw [firstBadDep]
    cases hc1 : seen.contains d with
    | true =>
      have hd : d ∈ seen := List.elem_iff.mp hc1
      simp only [Bool.not_true, Bool.false_and]
      rw [if_neg (by simp), ih]
      constructor
      · intro h x hx
        rcases List.mem_cons.mp hx with hx | hx
        · subst hx; exact Or.inl hd
        · exact h x hx
      · intro h x hx
        exact h x (List.mem_cons_of_mem _ hx)
    | false =>
      cases hc2 : taskExistsInList d all with
      | true =>
        have hd : d ∈ all.map Task.id := (taskExistsInList_iff d all).mp hc2
        simp only [Bool.not_true, Bool.and_false]
        rw [if_neg (by simp), ih]
        constructor
        · intro h x hx
          rcases List.mem_cons.mp hx with hx | hx
          · subst hx; exact Or.inr hd
          · exact h x hx
        · intro h x hx
          exact h x (List.mem_cons_of_mem _ hx)
      | false =>
        simp only [Bool.not_false, Bool.true_and]
        rw [if_pos (by simp)]
        constructor
        · intro h; simp at h
        · intro h
          exfalso
          rcases h d (List.mem_cons_self d ds) with hd | hd
          · exact Bool.false_ne_true (hc1 ▸ List.elem_iff.mpr hd)
          · exact Bool.false_ne_true (hc2 ▸ (taskExistsInList_iff d all).mpr hd)

lemma validateTasksLoop_ok_iff :
    ∀ (ts : List Task) (seen : List String) (all : List Task),
      (∀ x ∈ seen, x ∈ all.map Task.id) → (∀ t ∈ ts, t ∈ all) →
      (validateTasksLoop ts seen all = .ok () ↔
        ((∀ t ∈ ts, t.id ≠ "" ∧ t.prompt ≠ "" ∧
            ∀ d ∈ t.dependsOn, d ∈ all.map Task.id) ∧
          (ts.map Task.id).Nodup ∧ ∀ x ∈ ts.map Task.id, x ∉ seen)) := by
  intro ts
  induction ts with
  | nil => intro seen all _ _; simp [validateTasksLoop]
  | cons t ts ih =>
    intro seen all hseen hsub
    rw [validateTasksLoop]
    have htall : t ∈ all := hsub t (List.mem_cons_self t ts)
    have htid : t.id ∈ all.map Task.id := List.mem_map.mpr ⟨t, htall, rfl⟩
    by_cases h1 : t.id = ""
    · rw [if_pos h1]
      constructor
      · intro h; simp at h
      · intro h
        exact absurd h1 (h.1 t (List.mem_cons_self t ts)).1
    · rw [if_neg h1]
      cases hc : seen.contains t.id with
      | true =>
        rw [if_pos rfl]
        have h2' : t.id ∈ seen := List.elem_iff.mp hc
        constructor
        · intro h; simp at h
        · intro h
          exact absurd h2' (h.2.2 t.id (List.mem_map.mpr ⟨t, List.mem_cons_self t ts, rfl⟩))
      | false =>
        rw [if_neg (by simp)]
        have h2' : t.id ∉ seen := fun hmem => by
          have ht' : List.elem t.id seen = true := List.elem_iff.mpr hmem
          have hc' : List.elem t.id seen = false := hc
          rw [hc'] at ht'
          exact Bool.false_ne_true ht'
        by_cases h3 : t.prompt = ""
        · rw [if_pos h3]
          constructor
          · intro h; simp at h
          · intro h
            exact absurd h3 (h.1 t (List.mem_cons_self t ts)).2.1
        · rw [if_neg h3]
          cases hbad : firstBadDep t.dependsOn (t.id :: seen) all with
          | some d =>
            simp only []
            constructor
            · intro h; simp at h
            · intro h
              have hdeps := (h.1 t (List.mem_cons_self t ts)).2.2
              have : firstBadDep t.dependsOn (t.id :: seen) all = none := by
                rw [firstBadDep_none_iff]
                intro x hx
                right
                exact hdeps x hx
              rw [this] at hbad
              exact absurd hbad (by simp)
          | none =>
            simp only []
            have hbad' := (firstBadDep_none_iff t.dependsOn (t.id :: seen) all).mp hbad
            have hseen' : ∀ x ∈ t.id :: seen, x ∈ all.map Task.id := by
              intro x hx
              rcases List.mem_cons.mp hx with hx | hx
              · subst hx; exact htid
              · exact hseen x hx
            have hsub' : ∀ u ∈ ts, u ∈ all := fun u hu => hsub u (List.mem_cons_of_mem _ hu)
            rw [ih (t.id :: seen) all hseen' hsub']
            constructor
            · intro ⟨hts, hnodup, hnot⟩
              refine ⟨?_, ?_, ?_⟩
              · intro u hu
                rcases List.mem_cons.mp hu with hu | hu
                · subst hu
                  refine ⟨h1, h3, ?_⟩
                  intro d hd
                  rcases hbad' d hd with hd' | hd'
                  · rcases List.mem_cons.mp hd' with hd'' | hd''
                    · subst hd''; exact htid
                    · exact hseen d hd''
                  · exact hd'
                · exact hts u hu
              · rw [List.map_cons, List.nodup_cons]
                refine ⟨?_, hnodup⟩
                intro hmem
                exact (hnot t.id hmem) (List.mem_cons_self _ _)
              · intro x hx
                rw [List.map_cons] at hx
                rcases List.mem_cons.mp hx with hx | hx
                · subst hx; exact h2'
                · intro hmem
                  exact (hnot x hx) (List.mem_cons_of_mem _ hmem)
            · intro ⟨hts, hnodup, hnot⟩
              rw [List.map_cons, List.nodup_cons] at hnodup
              refine ⟨?_, hnodup.2, ?_⟩
              · intro u hu
                exact hts u (List.mem_cons_of_mem _ hu)
              · intro x hx hmem
                rcases List.mem_cons.mp hmem with hm | hm
                · subst hm
                  exact hnodup.1 hx
                · exact (hnot x (by rw [List.map_cons]; exact List.mem_cons_of_mem _ hx)) hm

/-- The diamond workflow of the specification example: A(deps:[]),
B(deps:[A]), C(deps:[B,A]). -/
def diamondWf : Workflow :=
  ⟨"diamond", "", [⟨"A", "", "", "pa", []⟩, ⟨"B", "", "", "pb", ["A"]⟩,
    ⟨"C", "", "", "pc", ["B", "A"]⟩]⟩

/-- A workflow with a self-cycle, used to witness the cycle-report part. -/
def selfCycleWf : Workflow := ⟨"w", "", [⟨"D", "", "", "p", ["D"]⟩]⟩

/-- C1: workflow validation succeeds iff the workflow has a non-empty
name, at least one task, non-empty unique task ids, non-empty prompts,
all dependency ids declared, and an acyclic dependency relation; every
reported cycle is an ordered dependency path that revisits an element of
itself; and the diamond A, B(A), C(B,A) validates, so two branches
reaching a shared dependency are not mistaken for a cycle. -/
theorem validate_ok_iff_validSpec :
    (∀ wf : Workflow,
      (Validate wf = .ok () ↔ ValidSpec wf) ∧
      (∀ r, checkCircularDependencies wf = some r →
        CycleReport (buildDeps wf.tasks) r)) ∧
    Validate diamondWf = .ok () := by
  refine ⟨fun wf => ⟨?_, fun r h => checkCircularDependencies_some wf r h⟩, by decide⟩
  unfold Validate
  by_cases hname : wf.name = ""
  · rw [if_pos hname]
    constructor
    · intro h; simp at h
    · intro h; exact absurd hname h.1
  · rw [if_neg hname]
    by_cases hempty : wf.tasks.isEmpty
    · rw [if_pos hempty]
      constructor
      · intro h; simp at h
      · intro h
        exact absurd (List.isEmpty_iff.mp hempty) h.2.1
    · rw [if_neg hempty]
      have hne : wf.tasks ≠ [] := fun hc => hempty (by simp [hc])
      have hloop := validateTasksLoop_ok_iff wf.tasks [] wf.tasks
        (by intro x hx; simp at hx) (fun t ht => ht)
      cases hl : validateTasksLoop wf.tasks [] wf.tasks with
      | error e =>
        simp only []
        constructor
        · intro h; simp at h
        · intro h
          obtain ⟨_, _, h3, h4, h5, _⟩ := h
          have : validateTasksLoop wf.tasks [] wf.tasks = .ok () := by
            rw [hloop]
            refine ⟨fun t ht => ⟨(h3 t ht).1, (h3 t ht).2, fun d hd => h5 t ht d hd⟩, h4, by simp⟩
          rw [this] at hl
          exact absurd hl (by simp)
      | ok u =>
        cases u
        simp only []
        cases hcc : checkCircularDependencies wf with
        | some r =>
          simp only []
          constructor
          · intro h; simp at h
          · intro h
            have : checkCircularDependencies wf = none :=
              (checkCircularDependencies_none_iff wf).mpr h.2.2.2.2.2
            rw [this] at hcc
            exact absurd hcc (by simp)
        | none =>
          simp only []
          constructor
          · intro _
            have hconds := (hloop).mp hl
            refine ⟨hname, hne, ?_, hconds.2.1, ?_, ?_⟩
            · exact fun t ht => ⟨(hconds.1 t ht).1, (hconds.1 t ht).2.1⟩
            · exact fun t ht d hd => (hconds.1 t ht).2.2 d hd
            · exact (checkCircularDependencies_none_iff wf).mp hcc
          · intro _; trivial

/-- Witness for C1: the self-cycle workflow D(deps:[D]) is reported with
the ordered path D, D, and that report satisfies the cycle property. -/
theorem validate_ok_iff_validSpec_witness :
    CycleReport (buildDeps selfCycleWf.tasks) ["D", "D"] :=
  (validate_ok_iff_validSpec.1 selfCycleWf).2 ["D", "D"] (by decide)



/-- Embeds workflow.TaskStatus. -/
inductive TaskStatus where
  | pending
  | running
  | completed
  | failed
deriving DecidableEq, Repr

/-- Embeds workflow.Question; the zero time.Time of an unanswered question
is modelled as instant 0. -/
structure Question where
  id : Int
  text : String
  askedAt : Nat
  answer : String
  answeredAt : Nat
deriving DecidableEq, Repr

/-- Embeds workflow.FollowUp. -/
structure FollowUp where
  id : Int
  text : String
  askedAt : Nat
  answer : String
  answeredAt : Nat
deriving DecidableEq, Repr

/-- Embeds the workflow.EventType string constants. -/
inductive EventType where
  | questionAsked
  | questionAnswered
  | followUpAsked
  | followUpAnswered
  | taskStarted
  | taskCompleted
  | taskFailed
  | agentStatusUpdate
  | fileOperationRequest
deriving DecidableEq, Repr

/-- Embeds workflow.FileEvent. -/
structure FileEvent where
  type : EventType
  agentID : String
  filePath : String
  time : Nat
deriving DecidableEq, Repr

/-- Embeds workflow.AgentState. -/
structure AgentState where
  taskID : String
  status : TaskStatus
  startedAt : Nat
  output : String
  error : String
  questions : List Question
  followUps : List FollowUp
  workingDir : String
deriving DecidableEq, Repr

/-- Embeds state.SwarmState (internal/state/state.go); the Go maps Agents
and outputsCache become association lists, the mutex is dropped (methods
are serialized by explicit state passing). -/
structure SwarmState where
  sessionID : String
  plan : String
  workflow : Workflow
  agents : List (String × AgentState)
  completedTasks : List String
  events : List FileEvent
  startedAt : Nat
  completedAt : Option Nat
  outputsCache : List (String × String)
deriving DecidableEq, Repr

/-- Go map read m[k]: the first binding of the key, if any. -/
def lookupA {β : Type} (m : List (String × β)) (k : String) : Option β :=
  match m.find? (fun p => p.1 == k) with
  | some p => some p.2
  | none => none

/-- Go map write m[k] = b for a key that may already be bound: replace the
binding in place, else append a new one. -/
def setA {β : Type} : List (String × β) → String → β → List (String × β)
  | [], k, b => [(k, b)]
  | p :: m, k, b => if p.1 == k then (k, b) :: m else p :: setA m k b

/-- In-place mutation of the AgentState a Go map value points to. -/
def updateAgent : List (String × AgentState) → String →
    (AgentState → AgentState) → List (String × AgentState)
  | [], _, _ => []
  | p :: m, k, f => (if p.1 == k then (p.1, f p.2) else p) :: updateAgent m k f

/-- Embeds the i-th element in-place update of a Go slice. -/
def modifyAt {α : Type} : List α → Nat → (α → α) → List α
  | [], _, _ => []
  | a :: l, 0, f => f a :: l
  | a :: l, i + 1, f => a :: modifyAt l i f

/-- Embeds SwarmState.addEvent: appends to the event log. -/
def addEvent (s : SwarmState) (t : EventType) (agentID filePath : String)
    (now : Nat) : SwarmState :=
  { s with events := s.events ++ [⟨t, agentID, filePath, now⟩] }

/-- Embeds SwarmState.AddAgent: fails if an agent for the task exists,
else records a Running agent and emits a TaskStarted event. -/
def AddAgent (s : SwarmState) (taskID workingDir : String) (now : Nat) :
    Except String Unit × SwarmState :=
  match lookupA s.agents taskID with
  | some _ => (.error ("agent for task " ++ taskID ++ " already exists"), s)
  | none =>
    let ag : AgentState := ⟨taskID, .running, now, "", "", [], [], workingDir⟩
    (.ok (), addEvent { s with agents := (taskID, ag) :: s.agents } .taskStarted taskID "" now)

/-- Embeds SwarmState.CompleteTask: fails if the agent is missing, else
sets status and output, appends to the completed list, updates the output
cache and emits a TaskCompleted event. -/
def CompleteTask (s : SwarmState) (taskID output : String) (now : Nat) :
    Except String Unit × SwarmState :=
  match lookupA s.agents taskID with
  | none => (.error ("agent for task " ++ taskID ++ " not found"), s)
  | some _ =>
    let s1 := { s with
      agents := updateAgent s.agents taskID
        (fun ag => { ag with status := .completed, output := output }),
      completedTasks := s.completedTasks ++ [taskID],
      outputsCache := setA s.outputsCache taskID output }
    (.ok (), addEvent s1 .taskCompleted taskID "" now)

/-- Embeds SwarmState.FailTask. -/
def FailTask (s : SwarmState) (taskID errorMsg : String) (now : Nat) :
    Except String Unit × SwarmState :=
  match lookupA s.agents taskID with
  | none => (.error ("agent for task " ++ taskID ++ " not found"), s)
  | some _ =>
    let s1 := { s with
      agents := updateAgent s.agents taskID
        (fun ag => { ag with status := .failed, error := errorMsg }) }
    (.ok (), addEvent s1 .taskFailed taskID "" now)

/-- Embeds SwarmState.AddQuestion: appends a question with id
len(questions)+1 and emits a QuestionAsked event. -/
def AddQuestion (s : SwarmState) (taskID questionText : String) (now : Nat) :
    Except String Int × SwarmState :=
  match lookupA s.agents taskID with
  | none => (.error ("agent for task " ++ taskID ++ " not found"), s)
  | some ag =>
    let qID : Int := (ag.questions.length : Int) + 1
    let q : Question := ⟨qID, questionText, now, "", 0⟩
    let s1 := { s with
      agents := updateAgent s.agents taskID
        (fun a => { a with questions := a.questions ++ [q] }) }
    (.ok qID, addEvent s1 .questionAsked taskID "" now)

/-- Embeds SwarmState.AnswerQuestion: fails if the agent is missing or the
question id is out of range, else records the answer and emits a
QuestionAnswered event. -/
def AnswerQuestion (s : SwarmState) (taskID : String) (qID : Int)
    (answer : String) (now : Nat) : Except String Unit × SwarmState :=
  match lookupA s.agents taskID with
  | none => (.error ("agent for task " ++ taskID ++ " not found"), s)
  | some ag =>
    if qID < 1 ∨ qID > (ag.questions.length : Int) then
      (.error ("question not found for task " ++ taskID), s)
    else
      let idx : Nat := (qID - 1).toNat
      let upd : Question → Question := fun q => { q with answer := answer, answeredAt := now }
      let s1 := { s with
        agents := updateAgent s.agents taskID
          (fun a => { a with questions := modifyAt a.questions idx upd }) }
      (.ok (), addEvent s1 .questionAnswered taskID "" now)

/-- Embeds SwarmState.isTaskCompleted: linear scan of the completed list. -/
def isTaskCompleted (s : SwarmState) (taskID : String) : Bool :=
  s.completedTasks.contains taskID

/-- Embeds the task loop of SwarmState.GetReadyTasks: skip spawned tasks,
keep those whose dependencies are all completed. -/
def getReadyLoop (s : SwarmState) : List Task → List Task
  | [] => []
  | t :: ts =>
    if (lookupA s.agents t.id).isSome then getReadyLoop s ts
    else if t.dependsOn.all (fun d => isTaskCompleted s d) then t :: getReadyLoop s ts
    else getReadyLoop s ts

/-- Embeds SwarmState.GetReadyTasks. -/
def GetReadyTasks (s : SwarmState) : List Task :=
  getReadyLoop s s.workflow.tasks

/-- Embeds SwarmState.IsComplete: completed count equals declared count. -/
def IsComplete (s : SwarmState) : Bool :=
  s.completedTasks.length == s.workflow.tasks.length

/-- Embeds SwarmState.MarkComplete. -/
def MarkComplete (s : SwarmState) (now : Nat) : SwarmState :=
  { s with completedAt := some now }

/-- Embeds SwarmState.GetOutputs: a snapshot copy of the output cache. -/
def GetOutputs (s : SwarmState) : List (String × String) :=
  s.outputsCache

/-- One call to a mutating session-store method, with its time instant. -/
inductive StateOp where
  | addAgent (taskID workingDir : String) (now : Nat)
  | completeTask (taskID output : String) (now : Nat)
  | failTask (taskID errorMsg : String) (now : Nat)
  | addQuestion (taskID text : String) (now : Nat)
  | answerQuestion (taskID : String) (qID : Int) (answer : String) (now : Nat)
  | markComplete (now : Nat)
deriving DecidableEq, Repr

/-- Apply one store method, keeping the resulting state. -/
def applyOp (s : SwarmState) : StateOp → SwarmState
  | .addAgent t d n => (AddAgent s t d n).2
  | .completeTask t o n => (CompleteTask s t o n).2
  | .failTask t m n => (FailTask s t m n).2
  | .addQuestion t q n => (AddQuestion s t q n).2
  | .answerQuestion t q a n => (AnswerQuestion s t q a n).2
  | .markComplete n => MarkComplete s n

/-- Apply a sequence of store methods. -/
def applyOps (s : SwarmState) (ops : List StateOp) : SwarmState :=
  ops.foldl applyOp s

/-- Specification-side readiness of claim C2: the task has no AgentState
and every dependency id appears in the completed list. -/
def ReadyPred (s : SwarmState) (t : Task) : Prop :=
  lookupA s.agents t.id = none ∧ ∀ d ∈ t.dependsOn, d ∈ s.completedTasks

instance readyPredDec (s : SwarmState) (t : Task) : Decidable (ReadyPred s t) := by
  unfold ReadyPred
  exact inferInstance



lemma lookupA_updateAgent_isSome (k id : String) (f : AgentState → AgentState) :
    ∀ m : List (String × AgentState),
      (lookupA (updateAgent m k f) id).isSome = (lookupA m id).isSome := by
  intro m
  induction m with
  | nil => rfl
  | cons p m ih =>
    rw [updateAgent]
    by_cases hpk : (p.1 == k) = true
    · rw [if_pos hpk]
      unfold lookupA
      simp only [List.find?]
      by_cases hpid : (p.1 == id) = true
      · simp [hpid]
      · simp only [Bool.not_eq_true] at hpid
        simp only [hpid]
        simpa [lookupA] using ih
    · rw [if_neg hpk]
      unfold lookupA
      simp only [List.find?]
      by_cases hpid : (p.1 == id) = true
      · simp [hpid]
      · simp only [Bool.not_eq_true] at hpid
        simp only [hpid]
        simpa [lookupA] using ih

lemma agents_monotone (s : SwarmState) (o : StateOp) (id : String)
    (h : (lookupA s.agents id).isSome) :
    (lookupA (applyOp s o).agents id).isSome := by
  cases o with
  | addAgent t d n =>
    simp only [applyOp, AddAgent]
    cases hl : lookupA s.agents t with
    | some ag => exact h
    | none =>
      simp only [addEvent]
      unfold lookupA at h ⊢
      simp only [List.find?]
      by_cases ht : t == id
      · simp [ht]
      · simp only [ht]
        exact h
  | completeTask t o n =>
    simp only [applyOp, CompleteTask]
    cases hl : lookupA s.agents t with
    | none => exact h
    | some ag =>
      dsimp only [addEvent]
      rw [lookupA_updateAgent_isSome]
      exact h
  | failTask t m n =>
    simp only [applyOp, FailTask]
    cases hl : lookupA s.agents t with
    | none => exact h
    | some ag =>
      dsimp only [addEvent]
      rw [lookupA_updateAgent_isSome]
      exact h
  | addQuestion t q n =>
    simp only [applyOp, AddQuestion]
    cases hl : lookupA s.agents t with
    | none => exact h
    | some ag =>
      dsimp only [addEvent]
      rw [lookupA_updateAgent_isSome]
      exact h
  | answerQuestion t q a n =>
    simp only [applyOp, AnswerQuestion]
    cases hl : lookupA s.agents t with
    | none => exact h
    | some ag =>
      by_cases hq : q < 1 ∨ q > (ag.questions.length : Int)
      · dsimp only
        rw [if_pos hq]
        exact h
      · dsimp only
        rw [if_neg hq]
        dsimp only [addEvent]
        rw [lookupA_updateAgent_isSome]
        exact h
  | markComplete n => exact h

lemma agents_monotone_ops (s : SwarmState) (ops : List StateOp) (id : String)
    (h : (lookupA s.agents id).isSome) :
    (lookupA (applyOps s ops).agents id).isSome := by
  induction ops generalizing s with
  | nil => exact h
  | cons o ops ih =>
    rw [applyOps, List.foldl_cons]
    exact ih (applyOp s o) (agents_monotone s o id h)

lemma isTaskCompleted_iff (s : SwarmState) (d : String) :
    isTaskCompleted s d = true ↔ d ∈ s.completedTasks := by
  unfold isTaskCompleted
  exact List.elem_iff

lemma getReadyLoop_filter (s : SwarmState) :
    ∀ ts : List Task, getReadyLoop s ts = ts.filter (fun t => decide (ReadyPred s t)) := by
  intro ts
  induction ts with
  | nil => simp [getReadyLoop]
  | cons t ts ih =>
    rw [getReadyLoop, List.filter_cons]
    cases hl : lookupA s.agents t.id with
    | some ag =>
      simp only [Option.isSome_some, if_pos rfl]
      have : decide (ReadyPred s t) = false := by
        rw [decide_eq_false_iff_not]
        intro hr
        rw [hr.1] at hl
        exact absurd hl (by simp)
      rw [this]
      simpa using ih
    | none =>
      simp only [Option.isSome_none]
      rw [if_neg (by simp)]
      cases hall : t.dependsOn.all (fun d => isTaskCompleted s d) with
      | true =>
        rw [if_pos rfl]
        have hd : decide (ReadyPred s t) = true := by
          rw [decide_eq_true_eq]
          refine ⟨hl, ?_⟩
          intro d hd
          have := List.all_eq_true.mp hall d hd
          exact (isTaskCompleted_iff s d).mp (by simpa using this)
        rw [ih, hd]
        simp
      | false =>
        rw [if_neg (by simp)]
        have : decide (ReadyPred s t) = false := by
          rw [decide_eq_false_iff_not]
          intro hr
          have : t.dependsOn.all (fun d => isTaskCompleted s d) = true := by
            rw [List.all_eq_true]
            intro d hd
            simpa using (isTaskCompleted_iff s d).mpr (hr.2 d hd)
          rw [this] at hall
          exact absurd hall (by simp)
        rw [this]
        simpa using ih

/-- C2: GetReadyTasks returns exactly the declared tasks, in declaration
order, that have no AgentState and whose dependency ids all appear in the
completed list; and once a task id has an AgentState, no sequence of
further store operations makes GetReadyTasks return it again. -/
theorem getReadyTasks_exactly_ready :
    (∀ s : SwarmState,
      GetReadyTasks s = s.workflow.tasks.filter (fun t => decide (ReadyPred s t))) ∧
    (∀ (s : SwarmState) (ops : List StateOp) (id : String) (t : Task),
      (lookupA s.agents id).isSome → t ∈ GetReadyTasks (applyOps s ops) → t.id ≠ id) := by
  constructor
  · intro s
    exact getReadyLoop_filter s s.workflow.tasks
  · intro s ops id t hsome hmem hid
    subst hid
    rw [GetReadyTasks, getReadyLoop_filter] at hmem
    have hfil := List.of_mem_filter hmem
    simp only [decide_eq_true_eq] at hfil
    have := agents_monotone_ops s ops t.id hsome
    rw [hfil.1] at this
    simp at this

/-- A one-task workflow and a state with a spawned agent for it, used as
concrete witnesses. -/
def wsOneTask : Workflow := ⟨"w", "", [⟨"a", "", "", "p", []⟩, ⟨"b", "", "", "p", []⟩]⟩

def agA : AgentState := ⟨"a", .running, 0, "", "", [], [], "/tmp/a"⟩

def sWithAgentA : SwarmState :=
  ⟨"s1", "plan", wsOneTask, [("a", agA)], [], [], 0, none, []⟩

/-- Witness for C2: in a two-task session in which task a is spawned, task
b is returned ready (so the hypotheses are satisfiable) and its id is not
the spawned id a. -/
theorem getReadyTasks_exactly_ready_witness :
    (⟨"b", "", "", "p", []⟩ : Task).id ≠ "a" :=
  getReadyTasks_exactly_ready.2 sWithAgentA [] "a" ⟨"b", "", "", "p", []⟩
    (by decide) (by decide)


lemma completeTask_agents_isSome (s : SwarmState) (tid out : String) (n : Nat)
    (id : String) (h : (lookupA s.agents id).isSome) :
    (lookupA ((CompleteTask s tid out n).2).agents id).isSome :=
  agents_monotone s (.completeTask tid out n) id h

lemma completeTask_appends (s : SwarmState) (tid out : String) (n : Nat)
    (h : (lookupA s.agents tid).isSome) :
    ((CompleteTask s tid out n).2).completedTasks = s.completedTasks ++ [tid] ∧
    ((CompleteTask s tid out n).2).workflow = s.workflow := by
  unfold CompleteTask
  cases hl : lookupA s.agents tid with
  | none => rw [hl] at h; simp at h
  | some ag => exact ⟨rfl, rfl⟩

/-- C5: CompleteTask is not idempotent: a second completion of the same
task appends its id to the completed list again, and a session in which
the completed count already equals the task count fails the IsComplete
equality check after one more (duplicate) completion. -/
theorem completeTask_not_idempotent :
    (∀ (s : SwarmState) (tid out1 out2 : String) (n1 n2 : Nat),
      (lookupA s.agents tid).isSome →
        ((CompleteTask s tid out1 n1).2).completedTasks = s.completedTasks ++ [tid] ∧
        ((CompleteTask (CompleteTask s tid out1 n1).2 tid out2 n2).2).completedTasks =
          s.completedTasks ++ [tid, tid]) ∧
    (∀ (s : SwarmState) (tid out : String) (n : Nat),
      (lookupA s.agents tid).isSome →
      s.completedTasks.length = s.workflow.tasks.length →
      IsComplete ((CompleteTask s tid out n).2) = false) := by
  constructor
  · intro s tid out1 out2 n1 n2 h
    have h1 := completeTask_appends s tid out1 n1 h
    have h2 := completeTask_appends ((CompleteTask s tid out1 n1).2) tid out2 n2
      (completeTask_agents_isSome s tid out1 n1 tid h)
    refine ⟨h1.1, ?_⟩
    rw [h2.1, h1.1, List.append_assoc]
    rfl
  · intro s tid out n h hlen
    have h1 := completeTask_appends s tid out n h
    unfold IsComplete
    rw [h1.1, h1.2, List.length_append, hlen]
    simp

/-- Witness for C5: in the session where both tasks a and b are completed
once, a duplicate completion of a makes IsComplete false. -/
theorem completeTask_not_idempotent_witness :
    IsComplete ((CompleteTask
      ⟨"s1", "plan", wsOneTask, [("a", agA)], ["a", "b"], [], 0, none, []⟩
      "a" "again" 7).2) = false :=
  completeTask_not_idempotent.2
    ⟨"s1", "plan", wsOneTask, [("a", agA)], ["a", "b"], [], 0, none, []⟩
    "a" "again" 7 (by decide) (by decide)

/-- C10: every mutating store method that fails leaves the session state
exactly as it was: no field changes and no event is appended. -/
theorem mutations_atomic_on_error :
    (∀ (s : SwarmState) (t d : String) (n : Nat) (e : String) (s' : SwarmState),
      AddAgent s t d n = (.error e, s') → s' = s) ∧
    (∀ (s : SwarmState) (t o : String) (n : Nat) (e : String) (s' : SwarmState),
      CompleteTask s t o n = (.error e, s') → s' = s) ∧
    (∀ (s : SwarmState) (t m : String) (n : Nat) (e : String) (s' : SwarmState),
      FailTask s t m n = (.error e, s') → s' = s) ∧
    (∀ (s : SwarmState) (t q : String) (n : Nat) (e : String) (s' : SwarmState),
      AddQuestion s t q n = (.error e, s') → s' = s) ∧
    (∀ (s : SwarmState) (t : String) (q : Int) (a : String) (n : Nat)
        (e : String) (s' : SwarmState),
      AnswerQuestion s t q a n = (.error e, s') → s' = s) := by
  refine ⟨?_, ?_, ?_, ?_, ?_⟩
  · intro s t d n e s' h
    unfold AddAgent at h
    cases hl : lookupA s.agents t with
    | some ag => rw [hl] at h; exact ((Prod.mk.injEq .. ▸ h).2).symm
    | none => rw [hl] at h; simp at h
  · intro s t o n e s' h
    unfold CompleteTask at h
    cases hl : lookupA s.agents t with
    | none => rw [hl] at h; exact ((Prod.mk.injEq .. ▸ h).2).symm
    | some ag => rw [hl] at h; simp at h
  · intro s t m n e s' h
    unfold FailTask at h
    cases hl : lookupA s.agents t with
    | none => rw [hl] at h; exact ((Prod.mk.injEq .. ▸ h).2).symm
    | some ag => rw [hl] at h; simp at h
  · intro s t q n e s' h
    unfold AddQuestion at h
    cases hl : lookupA s.agents t with
    | none => rw [hl] at h; exact ((Prod.mk.injEq .. ▸ h).2).symm
    | some ag => rw [hl] at h; simp at h
  · intro s t q a n e s' h
    unfold AnswerQuestion at h
    cases hl : lookupA s.agents t with
    | none => rw [hl] at h; exact ((Prod.mk.injEq .. ▸ h).2).symm
    | some ag =>
      rw [hl] at h
      dsimp only at h
      by_cases hq : q < 1 ∨ q > (ag.questions.length : Int)
      · rw [if_pos hq] at h
        exact ((Prod.mk.injEq .. ▸ h).2).symm
      · rw [if_neg hq] at h
        simp at h

/-- A session state with no agents, on which every lookup-guarded method
fails. -/
def sNoAgents : SwarmState := ⟨"s0", "", wsOneTask, [], [], [], 0, none, []⟩

/-- Witness for C10: concrete failing calls (duplicate AddAgent on a state
that has the agent; the other four methods on a state with no agents)
leave the respective states unchanged. -/
theorem mutations_atomic_on_error_witness :
    (AddAgent sWithAgentA "a" "/d" 3).2 = sWithAgentA ∧
    (CompleteTask sNoAgents "a" "o" 3).2 = sNoAgents ∧
    (FailTask sNoAgents "a" "boom" 3).2 = sNoAgents ∧
    (AddQuestion sNoAgents "a" "why" 3).2 = sNoAgents ∧
    (AnswerQuestion sNoAgents "a" 1 "ans" 3).2 = sNoAgents :=
  ⟨mutations_atomic_on_error.1 sWithAgentA "a" "/d" 3
      ("agent for task " ++ "a" ++ " already exists") _ (by decide),
    mutations_atomic_on_error.2.1 sNoAgents "a" "o" 3
      ("agent for task " ++ "a" ++ " not found") _ (by decide),
    mutations_atomic_on_error.2.2.1 sNoAgents "a" "boom" 3
      ("agent for task " ++ "a" ++ " not found") _ (by decide),
    mutations_atomic_on_error.2.2.2.1 sNoAgents "a" "why" 3
      ("agent for task " ++ "a" ++ " not found") _ (by decide),
    mutations_atomic_on_error.2.2.2.2 sNoAgents "a" 1 "ans" 3
      ("agent for task " ++ "a" ++ " not found") _ (by decide)⟩


/-- Embeds the on-disk JSON snapshot that Persistence.Save
(src/unnamed/part_002) actually writes: Go's encoding/json serializes only
the exported fields of SwarmState, so the unexported mu and outputsCache
are absent from the snapshot. -/
structure PersistedState where
  sessionID : String
  plan : String
  workflow : Workflow
  agents : List (String × AgentState)
  completedTasks : List String
  events : List FileEvent
  startedAt : Nat
  completedAt : Option Nat
deriving DecidableEq, Repr

/-- Embeds the marshalling step of Persistence.Save. -/
def Save (s : SwarmState) : PersistedState :=
  ⟨s.sessionID, s.plan, s.workflow, s.agents, s.completedTasks, s.events,
    s.startedAt, s.completedAt⟩

/-- Embeds Persistence.Load: unmarshal the exported fields and initialize
the (never serialized, hence nil) outputsCache to the empty map. -/
def Load (p : PersistedState) : SwarmState :=
  ⟨p.sessionID, p.plan, p.workflow, p.agents, p.completedTasks, p.events,
    p.startedAt, p.completedAt, []⟩

/-- Total number of questions across all agents of a session state. -/
def questionCount (s : SwarmState) : Nat :=
  (s.agents.map (fun p => p.2.questions.length)).sum

/-- A saved session state with one completed task whose output sits in
the output cache. -/
def sCacheEx : SwarmState :=
  ⟨"s1", "plan", wsOneTask,
    [("a", { agA with status := .completed, output := "done" })],
    ["a"], [], 0, none, [("a", "done")]⟩

/-- Counterexample for C3: after a Save→Load round trip of a state with a
completed task a whose output is cached, the loaded output cache is empty
rather than identical: it no longer maps a to its output. -/
theorem saveLoad_cache_counterexample :
    (Load (Save sCacheEx)).outputsCache ≠ sCacheEx.outputsCache ∧
    lookupA (Load (Save sCacheEx)).outputsCache "a" = none ∧
    lookupA sCacheEx.outputsCache "a" = some "done" := by
  refine ⟨?_, rfl, rfl⟩
  decide

/-- C3 (amended): a Save→Load round trip preserves the agent count, the
completed-task count and the question count, but the output cache is not
serialized (unexported field): the loaded cache is reconstructed empty,
so it matches the saved one only when the saved cache was empty. -/
theorem saveLoad_roundtrip_counts :
    ∀ s : SwarmState,
      (Load (Save s)).agents.length = s.agents.length ∧
      (Load (Save s)).completedTasks.length = s.completedTasks.length ∧
      questionCount (Load (Save s)) = questionCount s ∧
      (Load (Save s)).outputsCache = [] :=
  fun _ => ⟨rfl, rfl, rfl, rfl⟩


/-- Embeds workflow.Edit: one old-string/new-string replacement pair. -/
structure Edit where
  oldString : String
  newString : String
deriving DecidableEq, Repr

/-- Embeds workflow.Response: correlation id, status string
("success"/"error"), payload and error text. -/
structure Response where
  messageID : String
  status : String
  data : String
  error : String
deriving DecidableEq, Repr

/-- Embeds Go strings.Contains on character lists: some suffix of `s`
starts with `sub` (always true for an empty `sub`). -/
def containsSub : List Char → List Char → Bool
  | s, sub =>
    if sub.isPrefixOf s then true
    else
      match s with
      | [] => false
      | _ :: rest => containsSub rest sub

/-- Embeds Go strings.Replace(s, old, new, 1): splice `new` in place of the
first occurrence of `old`; with an empty `old` the insertion happens at
the start, exactly as in Go. -/
def replaceFirst : List Char → List Char → List Char → List Char
  | s, old, new =>
    if old.isPrefixOf s then new ++ s.drop old.length
    else
      match s with
      | [] => []
      | c :: rest => c :: replaceFirst rest old new

/-- Embeds the edit loop of MessageHandler.applyEdits
(internal/workflow/messages.go): apply each edit in order to the in-memory
content, failing with the 1-based index of the first edit whose old-string
is absent. -/
def applyEditsLoop : List Char → List Edit → Nat → Except Nat (List Char)
  | content, [], _ => .ok content
  | content, e :: es, i =>
    if containsSub content e.oldString.toList then
      applyEditsLoop (replaceFirst content e.oldString.toList e.newString.toList) es (i + 1)
    else .error i

/-- Embeds MessageHandler.applyEdits at the file level: read the content,
apply the edits in memory, and write the file back only when every edit
succeeded — on failure the function returns before os.WriteFile, so the
on-disk content is unchanged. -/
def applyEdits (fileContent : String) (edits : List Edit) :
    Except Nat Unit × String :=
  match applyEditsLoop fileContent.toList edits 1 with
  | .ok result => (.ok (), String.mk result)
  | .error i => (.error i, fileContent)

/-- Counterexample for C4: editing an on-disk "foo" with the edit list
[foo→bar, zzz→w] fails at edit 2, and the file on disk still holds "foo" —
the first replacement is NOT left applied on disk, contrary to the claim's
non-atomic-failure part. -/
theorem applyEdits_failure_counterexample :
    (applyEdits "foo" [⟨"foo", "bar"⟩, ⟨"zzz", "w"⟩]).1 = .error 2 ∧
    (applyEdits "foo" [⟨"foo", "bar"⟩, ⟨"zzz", "w"⟩]).2 = "foo" ∧
    String.mk (replaceFirst "foo".toList "foo".toList "bar".toList) = "bar" ∧
    (applyEdits "foo" [⟨"foo", "bar"⟩, ⟨"zzz", "w"⟩]).2 ≠
      String.mk (replaceFirst "foo".toList "foo".toList "bar".toList) := by
  refine ⟨rfl, rfl, rfl, ?_⟩
  decide

/-- C4 (amended): edits are applied in order, each replacing only the
first occurrence of its old-string ("foo bar foo" with foo→baz gives
"baz bar foo"; repeating the same edit replaces the next occurrence); a
missing old-string fails the whole operation with that edit's index, and
on failure the file on disk is left unchanged — the replacements of the
preceding edits are discarded with the in-memory buffer, not written. -/
theorem applyEdits_first_occurrence :
    (applyEdits "foo bar foo" [⟨"foo", "baz"⟩]).2 = "baz bar foo" ∧
    (applyEdits "foo bar foo" [⟨"foo", "baz"⟩, ⟨"foo", "baz"⟩]).2 = "baz bar baz" ∧
    (∀ (c : String) (es : List Edit) (i : Nat),
      (applyEdits c es).1 = .error i → (applyEdits c es).2 = c) ∧
    (∀ (c : String) (e : Edit),
      containsSub c.toList e.oldString.toList = false →
      applyEdits c [e] = (.error 1, c)) := by
  refine ⟨by decide, by decide, ?_, ?_⟩
  · intro c es i h
    unfold applyEdits at h ⊢
    cases hl : applyEditsLoop c.toList es 1 with
    | ok r => rw [hl] at h; simp at h
    | error j => rfl
  · intro c e h
    unfold applyEdits
    rw [applyEditsLoop, h]
    simp

/-- Witness for C4: the general failure conjuncts applied at the concrete
failing edit list of the counterexample. -/
theorem applyEdits_first_occurrence_witness :
    (applyEdits "foo" [⟨"foo", "bar"⟩, ⟨"zzz", "w"⟩]).2 = "foo" ∧
    applyEdits "abc" [⟨"zzz", "w"⟩] = (.error 1, "abc") :=
  ⟨applyEdits_first_occurrence.2.2.1 "foo" [⟨"foo", "bar"⟩, ⟨"zzz", "w"⟩] 2 (by decide),
    applyEdits_first_occurrence.2.2.2 "abc" ⟨"zzz", "w"⟩ (by decide)⟩


/-- A filesystem snapshot for the search operation: file paths with their
lines of text. -/
structure GrepFS where
  files : List (String × List String)
deriving DecidableEq, Repr

/-- Models the external `grep -r <pattern> <path>` command the handler
shells out to: one "file:line" output line per line containing the pattern
as a substring, and a superset marker of whether anything matched — grep
exits with status 1 (surfaced by Go exec as a non-nil error) exactly when
no line matched. -/
def grepRun (fs : GrepFS) (pat : String) : List String × Bool :=
  let hits := fs.files.foldr
    (fun f acc =>
      (f.2.filter (fun line => containsSub line.toList pat.toList)).map
        (fun line => f.1 ++ ":" ++ line) ++ acc) []
  (hits, !hits.isEmpty)

/-- Embeds MessageHandler.executeGrep: run grep, return its combined
output, and propagate the non-zero exit status as an error. -/
def executeGrep (fs : GrepFS) (pat : String) : Except String String :=
  let r := grepRun fs pat
  if r.2 then .ok (String.intercalate "\n" r.1)
  else .error "exit status 1"

/-- Embeds the grep arm of MessageHandler.executeOperation: an error from
executeGrep yields a Response with status "error" and empty Data; success
yields status "success" with the output as Data. -/
def executeOperationGrep (fs : GrepFS) (msgID pat : String) : Response :=
  match executeGrep fs pat with
  | .ok results => ⟨msgID, "success", results, ""⟩
  | .error e => ⟨msgID, "error", "", e⟩

/-- C7 (code bug): a content-search whose pattern matches nothing — here
"zzz" over a file holding only "hello world" — produces a Response with
status "error" (grep's exit status 1 is treated as a failure), not the
status "success" with empty payload that the specification promises and
that the sibling HTTP handler implements. -/
theorem grep_zero_matches_is_error :
    (executeOperationGrep ⟨[("f.txt", ["hello world"])]⟩ "m1" "zzz").status = "error" ∧
    (executeOperationGrep ⟨[("f.txt", ["hello world"])]⟩ "m1" "zzz").status ≠ "success" ∧
    (executeOperationGrep ⟨[("f.txt", ["hello world"])]⟩ "m1" "zzz").data = "" ∧
    (executeOperationGrep ⟨[("f.txt", ["hello world"])]⟩ "m1" "hello").status = "success" := by
  refine ⟨rfl, ?_, rfl, rfl⟩
  decide

/-- A filesystem snapshot for the write operation: the set of existing
directories and the files with their contents. -/
structure WriteFS where
  dirs : List String
  files : List (String × String)
deriving DecidableEq, Repr

/-- The parent directory of a slash-separated path: everything before the
last slash (empty for a bare file name, standing for the working
directory). -/
def parentDir (path : String) : String :=
  String.mk (((path.toList.reverse.dropWhile (fun c => c ≠ '/')).drop 1).reverse)

/-- Models os.WriteFile as invoked by the write_file arm: the write
succeeds iff the parent directory of the path exists; no directory is
ever created. -/
def osWriteFile (fs : WriteFS) (path content : String) : Except String WriteFS :=
  if fs.dirs.contains (parentDir path) then
    .ok ⟨fs.dirs, setA fs.files path content⟩
  else .error ("open " ++ path ++ ": no such file or directory")

/-- Embeds the write_file arm of MessageHandler.executeOperation: on
success the Data payload reports the byte count of the written content. -/
def executeOperationWriteFile (fs : WriteFS) (msgID path content : String) :
    Response × WriteFS :=
  match osWriteFile fs path content with
  | .ok fs' =>
    (⟨msgID, "success",
      "Wrote " ++ toString content.length ++ " bytes to " ++ path, ""⟩, fs')
  | .error e => (⟨msgID, "error", "", e⟩, fs)

/-- C8 (code bug): writing to sub/f.txt in a filesystem where directory
sub does not exist fails with status "error" and leaves the filesystem
unchanged — the handler never creates parent directories, although the
specification (and the sibling HTTP handler, which calls MkdirAll) says
it does; when the parent exists the write succeeds and reports the byte
count. -/
theorem writeFile_missing_parent_is_error :
    (executeOperationWriteFile ⟨[""], []⟩ "m1" "sub/f.txt" "hello").1.status = "error" ∧
    (executeOperationWriteFile ⟨[""], []⟩ "m1" "sub/f.txt" "hello").2 = ⟨[""], []⟩ ∧
    (executeOperationWriteFile ⟨[""], []⟩ "m1" "f.txt" "hello").1.status = "success" ∧
    (executeOperationWriteFile ⟨[""], []⟩ "m1" "f.txt" "hello").1.data =
      "Wrote 5 bytes to f.txt" := by
  refine ⟨rfl, rfl, rfl, ?_⟩
  decide


/-- The opening brace character, written by code point. -/
def lbrace : Char := Char.ofNat 123

/-- The closing brace character, written by code point. -/
def rbrace : Char := Char.ofNat 125

/-- The placeholder text the interpolator substitutes for a task id, the
Go fmt.Sprintf of an opening brace, the id, ".output" and a closing
brace. -/
def placeholderL (id : String) : List Char :=
  lbrace :: (id.toList ++ (".output".toList ++ [rbrace]))

/-- The placeholder as a string, for writing example prompts. -/
def phStr (id : String) : String :=
  String.mk (placeholderL id)

/-- Embeds Go strings.ReplaceAll on character lists: replace every
non-overlapping occurrence of `old` left to right, scanning on after each
inserted `new` rather than rescanning it; an empty `old` inserts `new` at
every boundary, as in Go.  The fuel argument only bounds the recursion
depth; one unit is consumed per character or per occurrence, so
`s.length + 1` always suffices. -/
def replaceAllFuel (old new : List Char) : Nat → List Char → List Char
  | 0, s => s
  | fuel + 1, s =>
    if old.isEmpty then
      match s with
      | [] => new
      | c :: rest => new ++ c :: replaceAllFuel old new fuel rest
    else if old.isPrefixOf s then
      new ++ replaceAllFuel old new fuel (s.drop old.length)
    else
      match s with
      | [] => []
      | c :: rest => c :: replaceAllFuel old new fuel rest

/-- Go strings.ReplaceAll at sufficient fuel. -/
def replaceAll (s old new : List Char) : List Char :=
  replaceAllFuel old new (s.length + 1) s

/-- Embeds Parser.InterpolatePrompt (internal/workflow/types.go): fold
strings.ReplaceAll of each id's placeholder over the outputs map.  Go
iterates the map in unspecified order; the association-list order stands
for one admissible iteration order. -/
def InterpolatePrompt (prompt : String) (outputs : List (String × String)) : String :=
  String.mk (outputs.foldl
    (fun res p => replaceAll res (placeholderL p.1) p.2.toList) prompt.toList)

/-- Follows the specification's words for claim C6: literal simultaneous
substitution — scan the prompt once, replacing each occurrence of a mapped
placeholder by that id's output, copying every other character (so any
placeholder without an output entry stays verbatim); substituted output is
emitted literally, never rescanned. -/
def specInterpolateFuel (outputs : List (String × String)) :
    Nat → List Char → List Char
  | 0, s => s
  | fuel + 1, s =>
    match s with
    | [] => []
    | c :: rest =>
      match outputs.find? (fun p => (placeholderL p.1).isPrefixOf s) with
      | some p =>
        p.2.toList ++ specInterpolateFuel outputs fuel (s.drop (placeholderL p.1).length)
      | none => c :: specInterpolateFuel outputs fuel rest

/-- Literal simultaneous substitution at sufficient fuel. -/
def specInterpolate (prompt : String) (outputs : List (String × String)) : String :=
  String.mk (specInterpolateFuel outputs (prompt.toList.length + 1) prompt.toList)

/-- The cross-referencing outputs map on which sequential ReplaceAll and
literal simultaneous substitution disagree under every iteration order. -/
def crossOutputs : List (String × String) := [("a", phStr "b"), ("b", phStr "a")]

/-- Counterexample for C6: interpolating a prompt holding the a and b
placeholders with outputs a ↦ the b placeholder text and b ↦ the a
placeholder text: the code substitutes sequentially with ReplaceAll, so
the output text inserted for a is itself rewritten by the later pass for
b, and the result differs from the literal substitution the claim
describes. -/
theorem interpolate_not_literal_counterexample :
    InterpolatePrompt (phStr "a" ++ " " ++ phStr "b") crossOutputs ≠
      specInterpolate (phStr "a" ++ " " ++ phStr "b") crossOutputs ∧
    specInterpolate (phStr "a" ++ " " ++ phStr "b") crossOutputs =
      phStr "b" ++ " " ++ phStr "a" ∧
    InterpolatePrompt (phStr "a" ++ " " ++ phStr "b") crossOutputs =
      phStr "a" ++ " " ++ phStr "a" := by
  refine ⟨by decide, by decide, by decide⟩

lemma containsSub_cons_false {s old : List Char} {c : Char}
    (h : containsSub (c :: s) old = false) : containsSub s old = false := by
  rw [containsSub] at h
  by_cases hp : old.isPrefixOf (c :: s)
  · rw [if_pos hp] at h; exact absurd h (by simp)
  · rw [if_neg hp] at h; exact h

lemma replaceAllFuel_no_occurrence (old new : List Char) (hold : old ≠ []) :
    ∀ (fuel : Nat) (s : List Char), s.length < fuel →
      containsSub s old = false → replaceAllFuel old new fuel s = s := by
  intro fuel
  induction fuel with
  | zero => intro s h; omega
  | succ n ih =>
    intro s hlen hsub
    rw [replaceAllFuel.eq_def]
    dsimp only
    rw [if_neg (by simpa using hold)]
    have hpre : old.isPrefixOf s = false := by
      rw [containsSub.eq_def] at hsub
      dsimp only at hsub
      cases hp : old.isPrefixOf s with
      | true => rw [if_pos hp] at hsub; exact absurd hsub (by simp)
      | false => rfl
    rw [if_neg (by simp [hpre])]
    cases s with
    | nil => rfl
    | cons c rest =>
      dsimp only
      have : replaceAllFuel old new n rest = rest := by
        refine ih rest ?_ (containsSub_cons_false hsub)
        simp at hlen
        omega
      rw [this]

lemma replaceAll_no_occurrence (s old new : List Char) (hold : old ≠ [])
    (h : containsSub s old = false) : replaceAll s old new = s :=
  replaceAllFuel_no_occurrence old new hold (s.length + 1) s (by omega) h

lemma placeholderL_ne_nil (id : String) : placeholderL id ≠ [] := by
  rw [placeholderL]
  simp

/-- C6 (amended): interpolation substitutes sequentially — one ReplaceAll
per outputs entry in iteration order — so an output containing another
mapped placeholder is itself substituted by a later pass; on the worked
example it still yields "See X and Y", a placeholder with no output entry
is left verbatim, and a prompt containing no mapped placeholder at all is
returned unchanged. -/
theorem interpolate_sequential_substitution :
    InterpolatePrompt ("See " ++ phStr "a" ++ " and " ++ phStr "b")
        [("a", "X"), ("b", "Y")] = "See X and Y" ∧
    InterpolatePrompt ("Use " ++ phStr "c") [("a", "X")] = "Use " ++ phStr "c" ∧
    (∀ (prompt : String) (outputs : List (String × String)),
      (∀ p ∈ outputs, containsSub prompt.toList (placeholderL p.1) = false) →
      InterpolatePrompt prompt outputs = prompt) := by
  refine ⟨by decide, by decide, ?_⟩
  intro prompt outputs h
  unfold InterpolatePrompt
  have hfold : outputs.foldl
      (fun res p => replaceAll res (placeholderL p.1) p.2.toList) prompt.toList =
      prompt.toList := by
    induction outputs with
    | nil => rfl
    | cons p ps ih =>
      rw [List.foldl_cons]
      rw [replaceAll_no_occurrence _ _ _ (placeholderL_ne_nil p.1)
        (h p (List.mem_cons_self p ps))]
      exact ih (fun q hq => h q (List.mem_cons_of_mem _ hq))
  rw [hfold]
  rfl


/-- Witness for C6 (amended): a prompt containing no mapped placeholder is
returned unchanged. -/
theorem interpolate_sequential_substitution_witness :
    InterpolatePrompt "plain prompt" [("a", "X")] = "plain prompt" :=
  interpolate_sequential_substitution.2.2 "plain prompt" [("a", "X")] (by decide)

/-- Embeds FileMonitor.extractAgentID (src/unnamed/part_001): the first
match of the regular expression /agents/agent-([^/]+)/ over the path,
modelled on the path's slash-separated components (absolute path, no
slashes inside components): a component "agents" followed by a component
"agent-<id>" with non-empty id that is not the final component; returns
the empty string when nothing matches, as the Go code does. -/
def extractAgentID : List (List Char) → List Char
  | a :: b :: rest =>
    if a = "agents".toList ∧ "agent-".toList.isPrefixOf b ∧ 6 < b.length ∧ rest ≠ [] then
      b.drop 6
    else extractAgentID (b :: rest)
  | _ => []

/-- Embeds FileMonitor.detectEventType: classify by the base file name and
the directories on the path, with the switch-case nesting of the Go code
(a q- or a- prefixed .txt file is consumed by its case even when it sits
under neither a questions nor a followup directory). -/
def detectEventType (path : List (List Char)) : Option EventType :=
  match path.getLast? with
  | none => none
  | some filename =>
    let dirs := path.dropLast
    if "q-".toList.isPrefixOf filename ∧ ".txt".toList.isSuffixOf filename then
      if dirs.contains "questions".toList then some .questionAsked
      else if dirs.contains "followup".toList then some .followUpAsked
      else none
    else if "a-".toList.isPrefixOf filename ∧ ".txt".toList.isSuffixOf filename then
      if dirs.contains "questions".toList then some .questionAnswered
      else if dirs.contains "followup".toList then some .followUpAnswered
      else none
    else if filename = "COMPLETE".toList then some .taskCompleted
    else if filename = "status.txt".toList then some .agentStatusUpdate
    else if "msg-".toList.isPrefixOf filename ∧ ".json".toList.isSuffixOf filename then
      if dirs.contains "messages".toList then some .fileOperationRequest
      else none
    else none

/-- Embeds the classification step of FileMonitor.handleCreate for a
created regular file: no event when no agent id can be extracted or when
the file name matches no pattern, else the typed event with the agent id. -/
def monitorEvent (path : List (List Char)) : Option (EventType × List Char) :=
  let agentID := extractAgentID path
  if agentID = [] then none
  else
    match detectEventType path with
    | some t => some (t, agentID)
    | none => none

/-- Follows the specification's words for claim C9: the task id of the
worker directory on the path — the spec's worker-<task-id> directory
convention, spelled agents/agent-<task-id> on disk. -/
def workerTaskId : List (List Char) → Option (List Char)
  | a :: b :: rest =>
    if a = "agents".toList ∧ "agent-".toList.isPrefixOf b ∧ 6 < b.length ∧ rest ≠ [] then
      some (b.drop 6)
    else workerTaskId (b :: rest)
  | _ => none

/-- Follows the specification's words for claim C9: the classification
table — question-asked for q-N.txt under questions/, question-answered for
a-N.txt under questions/, follow-up-asked/answered likewise under
followup/, task-completed for the COMPLETE marker, status-update for
status.txt, operation-request for a msg-N.json under messages/, and no
event otherwise; the task id comes from the worker directory. -/
def specClassify (path : List (List Char)) : Option (EventType × List Char) :=
  match workerTaskId path with
  | none => none
  | some tid =>
    match path.getLast? with
    | none => none
    | some fn =>
      let dirs := path.dropLast
      if ("q-".toList.isPrefixOf fn ∧ ".txt".toList.isSuffixOf fn) ∧
          dirs.contains "questions".toList then some (.questionAsked, tid)
      else if ("a-".toList.isPrefixOf fn ∧ ".txt".toList.isSuffixOf fn) ∧
          dirs.contains "questions".toList then some (.questionAnswered, tid)
      else if ("q-".toList.isPrefixOf fn ∧ ".txt".toList.isSuffixOf fn) ∧
          dirs.contains "followup".toList then some (.followUpAsked, tid)
      else if ("a-".toList.isPrefixOf fn ∧ ".txt".toList.isSuffixOf fn) ∧
          dirs.contains "followup".toList then some (.followUpAnswered, tid)
      else if fn = "COMPLETE".toList then some (.taskCompleted, tid)
      else if fn = "status.txt".toList then some (.agentStatusUpdate, tid)
      else if ("msg-".toList.isPrefixOf fn ∧ ".json".toList.isSuffixOf fn) ∧
          dirs.contains "messages".toList then some (.fileOperationRequest, tid)
      else none

lemma workerTaskId_extract : ∀ path : List (List Char),
    workerTaskId path =
      if extractAgentID path = [] then none else some (extractAgentID path) := by
  intro path
  match path with
  | [] => rfl
  | [a] => rfl
  | a :: b :: rest =>
    rw [workerTaskId, extractAgentID]
    by_cases hcond : a = "agents".toList ∧ "agent-".toList.isPrefixOf b ∧
        6 < b.length ∧ rest ≠ []
    · rw [if_pos hcond, if_pos hcond]
      have hne : b.drop 6 ≠ [] := by
        intro hc
        have := congrArg List.length hc
        simp at this
        omega
      rw [if_neg hne]
    · rw [if_neg hcond, if_neg hcond]
      exact workerTaskId_extract (b :: rest)

lemma isPrefixOf_cons_head {c : Char} {l fn : List Char}
    (h : ((c :: l).isPrefixOf fn) = true) : ∃ rest, fn = c :: rest := by
  cases fn with
  | nil => simp at h
  | cons d fn' =>
    simp only [List.isPrefixOf, Bool.and_eq_true, beq_iff_eq] at h
    exact ⟨fn', by rw [h.1]⟩


lemma fn_head_excl {fn : List Char} {r : List Char} {c : Char} (hfn : fn = c :: r)
    (hC : c ≠ 'C') (hs : c ≠ 's') (hm : c ≠ 'm') :
    fn ≠ "COMPLETE".toList ∧ fn ≠ "status.txt".toList ∧
    ("msg-".toList.isPrefixOf fn) = false := by
  subst hfn
  refine ⟨?_, ?_, ?_⟩
  · intro h
    have e : "COMPLETE".toList = 'C' :: "OMPLETE".toList := rfl
    rw [e] at h
    injection h with h1 _
    exact hC h1
  · intro h
    have e : "status.txt".toList = 's' :: "tatus.txt".toList := rfl
    rw [e] at h
    injection h with h1 _
    exact hs h1
  · have e : "msg-".toList = 'm' :: "sg-".toList := rfl
    rw [e]
    have hne : ('m' == c) = false := beq_eq_false_iff_ne.mpr (Ne.symm hm)
    simp [List.isPrefixOf, hne]



/-- C9: the monitor's event classification of a created file path equals
the specification's table — question events for q-N.txt and a-N.txt under
questions/ and followup/, task-completed for the COMPLETE marker,
status-update for status.txt, operation-request for message files under
messages/, no event for every other path, with the task id taken from the
worker directory component. -/
theorem monitor_event_classification :
    ∀ path : List (List Char), monitorEvent path = specClassify path := by
  intro path
  unfold monitorEvent specClassify
  rw [workerTaskId_extract]
  by_cases hid : extractAgentID path = []
  · rw [if_pos hid, if_pos hid]
  · rw [if_neg hid, if_neg hid]
    unfold detectEventType
    cases hfn : path.getLast? with
    | none => rfl
    | some fn =>
      dsimp only
      by_cases hq : "q-".toList.isPrefixOf fn ∧ ".txt".toList.isSuffixOf fn
      · rw [if_pos hq]
        by_cases hQ : (path.dropLast).contains "questions".toList
        · have r1 : ("q-".toList.isPrefixOf fn ∧ ".txt".toList.isSuffixOf fn) ∧
              (path.dropLast).contains "questions".toList := ⟨hq, hQ⟩
          rw [if_pos hQ, if_pos r1]
        · have r1 : ¬ (("q-".toList.isPrefixOf fn ∧ ".txt".toList.isSuffixOf fn) ∧
              (path.dropLast).contains "questions".toList) := fun hh => hQ hh.2
          have r2 : ¬ (("a-".toList.isPrefixOf fn ∧ ".txt".toList.isSuffixOf fn) ∧
              (path.dropLast).contains "questions".toList) := fun hh => hQ hh.2
          rw [if_neg hQ, if_neg r1]
          by_cases hF : (path.dropLast).contains "followup".toList
          · have r3 : ("q-".toList.isPrefixOf fn ∧ ".txt".toList.isSuffixOf fn) ∧
                (path.dropLast).contains "followup".toList := ⟨hq, hF⟩
            rw [if_pos hF, if_neg r2, if_pos r3]
          · have r3 : ¬ (("q-".toList.isPrefixOf fn ∧ ".txt".toList.isSuffixOf fn) ∧
                (path.dropLast).contains "followup".toList) := fun hh => hF hh.2
            have r4 : ¬ (("a-".toList.isPrefixOf fn ∧ ".txt".toList.isSuffixOf fn) ∧
                (path.dropLast).contains "followup".toList) := fun hh => hF hh.2
            have hq1 := hq.1
            rw [show "q-".toList = 'q' :: "-".toList from rfl] at hq1
            obtain ⟨r, hr⟩ := isPrefixOf_cons_head hq1
            have hex := fn_head_excl hr (by decide) (by decide) (by decide)
            have r7 : ¬ (("msg-".toList.isPrefixOf fn ∧ ".json".toList.isSuffixOf fn) ∧
                (path.dropLast).contains "messages".toList) := by
              intro hh
              have hb := hh.1.1
              rw [hex.2.2] at hb
              exact Bool.false_ne_true hb
            rw [if_neg hF, if_neg r2, if_neg r3, if_neg r4,
              if_neg hex.1, if_neg hex.2.1, if_neg r7]
      · rw [if_neg hq]
        have nq : ∀ X : Prop, ¬ (("q-".toList.isPrefixOf fn ∧ ".txt".toList.isSuffixOf fn) ∧ X) :=
          fun X hh => hq hh.1
        by_cases ha : "a-".toList.isPrefixOf fn ∧ ".txt".toList.isSuffixOf fn
        · rw [if_pos ha]
          by_cases hQ : (path.dropLast).contains "questions".toList
          · have r2 : ("a-".toList.isPrefixOf fn ∧ ".txt".toList.isSuffixOf fn) ∧
                (path.dropLast).contains "questions".toList := ⟨ha, hQ⟩
            rw [if_pos hQ, if_neg (nq _), if_pos r2]
          · have r2 : ¬ (("a-".toList.isPrefixOf fn ∧ ".txt".toList.isSuffixOf fn) ∧
                (path.dropLast).contains "questions".toList) := fun hh => hQ hh.2
            rw [if_neg hQ, if_neg (nq _), if_neg r2]
            by_cases hF : (path.dropLast).contains "followup".toList
            · have r4 : ("a-".toList.isPrefixOf fn ∧ ".txt".toList.isSuffixOf fn) ∧
                  (path.dropLast).contains "followup".toList := ⟨ha, hF⟩
              rw [if_pos hF, if_neg (nq _), if_pos r4]
            · have r4 : ¬ (("a-".toList.isPrefixOf fn ∧ ".txt".toList.isSuffixOf fn) ∧
                  (path.dropLast).contains "followup".toList) := fun hh => hF hh.2
              have ha1 := ha.1
              rw [show "a-".toList = 'a' :: "-".toList from rfl] at ha1
              obtain ⟨r, hr⟩ := isPrefixOf_cons_head ha1
              have hex := fn_head_excl hr (by decide) (by decide) (by decide)
              have r7 : ¬ (("msg-".toList.isPrefixOf fn ∧ ".json".toList.isSuffixOf fn) ∧
                  (path.dropLast).contains "messages".toList) := by
                intro hh
                have hb := hh.1.1
                rw [hex.2.2] at hb
                exact Bool.false_ne_true hb
              rw [if_neg hF, if_neg (nq _), if_neg r4,
                if_neg hex.1, if_neg hex.2.1, if_neg r7]
        · rw [if_neg ha]
          have na : ∀ X : Prop, ¬ (("a-".toList.isPrefixOf fn ∧ ".txt".toList.isSuffixOf fn) ∧ X) :=
            fun X hh => ha hh.1
          by_cases hC : fn = "COMPLETE".toList
          · rw [if_pos hC, if_neg (nq _), if_neg (na _), if_neg (nq _), if_neg (na _),
              if_pos hC]
          · rw [if_neg hC]
            by_cases hS : fn = "status.txt".toList
            · rw [if_pos hS, if_neg (nq _), if_neg (na _), if_neg (nq _), if_neg (na _),
                if_neg hC, if_pos hS]
            · rw [if_neg hS]
              by_cases hm : "msg-".toList.isPrefixOf fn ∧ ".json".toList.isSuffixOf fn
              · rw [if_pos hm]
                by_cases hM : (path.dropLast).contains "messages".toList
                · have r7 : ("msg-".toList.isPrefixOf fn ∧ ".json".toList.isSuffixOf fn) ∧
                      (path.dropLast).contains "messages".toList := ⟨hm, hM⟩
                  rw [if_pos hM, if_neg (nq _), if_neg (na _), if_neg (nq _), if_neg (na _),
                    if_neg hC, if_neg hS, if_pos r7]
                · have r7 : ¬ (("msg-".toList.isPrefixOf fn ∧ ".json".toList.isSuffixOf fn) ∧
                      (path.dropLast).contains "messages".toList) := fun hh => hM hh.2
                  rw [if_neg hM, if_neg (nq _), if_neg (na _), if_neg (nq _), if_neg (na _),
                    if_neg hC, if_neg hS, if_neg r7]
              · have r7 : ¬ (("msg-".toList.isPrefixOf fn ∧ ".json".toList.isSuffixOf fn) ∧
                    (path.dropLast).contains "messages".toList) := fun hh => hm hh.1
                rw [if_neg hm, if_neg (nq _), if_neg (na _), if_neg (nq _), if_neg (na _),
                  if_neg hC, if_neg hS, if_neg r7]

end Swarm
